import Mathlib

/-!
# Verification of `api/v1beta1/plugin_list.go`

A shallow embedding of the plugin-list operations of the grafana operator
(`GrafanaPlugin`, `PluginList`, and the methods `Hash`, `Update`, `Sanitize`,
`HasSomeVersionOf`, `HasExactVersionOf`, `HasNewerVersionOf`,
`ConsolidatedConcat`), together with a faithful model of the
`github.com/blang/semver` parsing and comparison routines the Go code calls,
and theorems settling the specification claims about these operations.

Go slices become `List`, Go `(T, error)` results become `Except String T`,
and `uint64` arithmetic carries an explicit `2 ^ 64` bound where the Go
library checks one.
-/

namespace Semver

/-- The digit set `numbers = "0123456789"` of blang/semver. -/
def isNumChar (c : Char) : Bool :=
  ("0123456789".data).contains c

/-- The set `alphas` of blang/semver: ASCII letters and the dash. -/
def isAlphaDashChar (c : Char) : Bool :=
  ("abcdefghijklmnopqrstuvwxyzABCDEFGHIJKLMNOPQRSTUVWXYZ-".data).contains c

/-- `containsOnly s set`: every character of `s` satisfies the predicate. -/
def containsOnly (cs : List Char) (set : Char → Bool) : Bool :=
  cs.all set

/-- `hasLeadingZeroes`: more than one character and the first is `'0'`. -/
def hasLeadingZeroes (cs : List Char) : Bool :=
  decide (1 < cs.length) && cs.headD ' ' == '0'

/-- Digits-to-number accumulation, as `strconv.ParseUint` computes it. -/
def digitsToNat (cs : List Char) : Nat :=
  cs.foldl (fun n c => n * 10 + (c.toNat - 48)) 0

/-- `strconv.ParseUint(s, 10, 64)`: rejects the empty string and
non-digit characters, and overflows above `2 ^ 64 - 1`. -/
def parseUint64 (cs : List Char) : Except String Nat :=
  if cs.isEmpty then .error "invalid syntax"
  else if !containsOnly cs isNumChar then .error "invalid syntax"
  else
    let n := digitsToNat cs
    if n < 2 ^ 64 then .ok n else .error "value out of range"

/-- `strings.Split(s, sep)` for a one-character separator: always returns at
least one part; splitting the empty string yields `[[]]`. -/
def splitChar (sep : Char) : List Char → List (List Char)
  | [] => [[]]
  | c :: cs =>
    if c == sep then [] :: splitChar sep cs
    else
      match splitChar sep cs with
      | [] => [[c]]
      | p :: ps => (c :: p) :: ps

/-- `strings.SplitN(s, sep, 3)`: at most three parts, the third keeping any
further separators. -/
def splitN3 (sep : Char) (cs : List Char) : List (List Char) :=
  match splitChar sep cs with
  | p0 :: p1 :: p2 :: rest => [p0, p1, List.intercalate [sep] (p2 :: rest)]
  | parts => parts

/-- `strings.IndexRune` followed by slicing: split at the first occurrence of
`sep`, or `none` when `sep` does not occur. -/
def breakFirst (sep : Char) : List Char → Option (List Char × List Char)
  | [] => none
  | c :: cs =>
    if c == sep then some ([], cs)
    else
      match breakFirst sep cs with
      | none => none
      | some (a, b) => some (c :: a, b)

/-- A parsed pre-release identifier (`PRVersion` of blang/semver): either a
number or an alphanumeric string. -/
structure PRVersion where
  versionStr : List Char
  versionNum : Nat
  isNum : Bool
deriving DecidableEq, Repr

/-- `NewPRVersion`: empty identifiers are an error, all-digit identifiers
must have no leading zero and become numeric, alphanumeric identifiers stay
strings, anything else is an error. -/
def newPRVersion (cs : List Char) : Except String PRVersion :=
  if cs.isEmpty then .error "Prerelease is empty"
  else if containsOnly cs isNumChar then
    if hasLeadingZeroes cs then
      .error "Numeric PreRelease version must not contain leading zeroes"
    else
      match parseUint64 cs with
      | .error e => .error e
      | .ok n => .ok ⟨[], n, true⟩
  else if containsOnly cs (fun c => isAlphaDashChar c || isNumChar c) then
    .ok ⟨cs, 0, false⟩
  else .error "Invalid character(s) found in prerelease"

/-- A parsed semantic version (`Version` of blang/semver). -/
structure Version where
  major : Nat
  minor : Nat
  patch : Nat
  pre : List PRVersion
  build : List (List Char)
deriving DecidableEq, Repr

/-- Parse every pre-release identifier, aborting at the first error. -/
def parsePreList : List (List Char) → Except String (List PRVersion)
  | [] => .ok []
  | p :: ps =>
    match newPRVersion p with
    | .error e => .error e
    | .ok v =>
      match parsePreList ps with
      | .error e => .error e
      | .ok vs => .ok (v :: vs)

/-- Validate the build metadata identifiers: nonempty and alphanumeric. -/
def checkBuildList : List (List Char) → Except String (List (List Char))
  | [] => .ok []
  | b :: bs =>
    if b.isEmpty then .error "Build meta data is empty"
    else if !containsOnly b (fun c => isAlphaDashChar c || isNumChar c) then
      .error "Invalid character(s) found in build meta data"
    else
      match checkBuildList bs with
      | .error e => .error e
      | .ok rest => .ok (b :: rest)

/-- Check a `major`/`minor`/`patch` component: digits only, no leading
zeroes, then `ParseUint`. -/
def parseNumComponent (what : String) (cs : List Char) : Except String Nat :=
  if !containsOnly cs isNumChar then
    .error ("Invalid character(s) found in " ++ what ++ " number")
  else if hasLeadingZeroes cs then
    .error (what ++ " number must not contain leading zeroes")
  else parseUint64 cs

/-- `semver.Parse`, over the character list of the version string. -/
def parseChars (cs : List Char) : Except String Version :=
  if cs.isEmpty then .error "Version string empty"
  else
    match splitN3 '.' cs with
    | [p0, p1, p2] => do
      let major ← parseNumComponent "major" p0
      let minor ← parseNumComponent "minor" p1
      let (patchAndPre, build) :=
        match breakFirst '+' p2 with
        | some (before, after) => (before, splitChar '.' after)
        | none => (p2, [])
      let (patchStr, prerelease) :=
        match breakFirst '-' patchAndPre with
        | some (before, after) => (before, splitChar '.' after)
        | none => (patchAndPre, [])
      let patch ← parseNumComponent "patch" patchStr
      let pre ← parsePreList prerelease
      let build ← checkBuildList build
      .ok ⟨major, minor, patch, pre, build⟩
    | _ => .error "No Major.Minor.Patch elements found"

/-- `semver.Parse` on a string. -/
def parse (s : String) : Except String Version :=
  parseChars s.data

/-- `semver.Make` is an alias for `semver.Parse` in blang/semver. -/
def make (s : String) : Except String Version :=
  parse s

/-- Three-way comparison of naturals, as Go writes it with `>`. -/
def cmpNat (a b : Nat) : Int :=
  if a = b then 0 else if a > b then 1 else -1

/-- Go byte-wise lexicographic `<` on (ASCII) strings. -/
def charListLt : List Char → List Char → Bool
  | [], [] => false
  | [], _ :: _ => true
  | _ :: _, [] => false
  | a :: as, b :: bs =>
    if a.toNat < b.toNat then true
    else if b.toNat < a.toNat then false
    else charListLt as bs

/-- `PRVersion.Compare`: numeric identifiers sort below alphanumeric ones;
numeric compare by value, alphanumeric by string order. -/
def PRVersion.compare (v o : PRVersion) : Int :=
  if v.isNum && !o.isNum then -1
  else if !v.isNum && o.isNum then 1
  else if v.isNum && o.isNum then cmpNat v.versionNum o.versionNum
  else
    if v.versionStr = o.versionStr then 0
    else if charListLt o.versionStr v.versionStr then 1
    else -1

/-- Element-wise comparison of pre-release lists; a longer list wins a tie
on the common prefix. -/
def preListCompare : List PRVersion → List PRVersion → Int
  | [], [] => 0
  | [], _ :: _ => -1
  | _ :: _, [] => 1
  | a :: as, b :: bs =>
    let c := a.compare b
    if c = 0 then preListCompare as bs else c

/-- `Version.Compare`: major, minor, patch, then pre-release (a release
outranks any pre-release); build metadata is ignored. -/
def Version.compare (v o : Version) : Int :=
  if v.major ≠ o.major then cmpNat v.major o.major
  else if v.minor ≠ o.minor then cmpNat v.minor o.minor
  else if v.patch ≠ o.patch then cmpNat v.patch o.patch
  else
    match v.pre, o.pre with
    | [], [] => 0
    | [], _ :: _ => 1
    | _ :: _, [] => -1
    | a :: as, b :: bs => preListCompare (a :: as) (b :: bs)

end Semver

namespace Sha256

/-! A model of `crypto/sha256` over natural numbers: 32-bit words are
naturals reduced modulo `2 ^ 32`, bytes are naturals below `256`. -/

/-- Reduce to a 32-bit word. -/
def mod32 (x : Nat) : Nat :=
  x % 2 ^ 32

/-- Right rotation of a 32-bit word by `n` places. -/
def rotr32 (x n : Nat) : Nat :=
  mod32 (x / 2 ^ n + x % 2 ^ n * 2 ^ (32 - n))

/-- Bitwise complement of a 32-bit word. -/
def not32 (x : Nat) : Nat :=
  x ^^^ (2 ^ 32 - 1)

/-- The eight working variables of the compression function and, between
chunks, the running hash value. -/
structure State where
  a : Nat
  b : Nat
  c : Nat
  d : Nat
  e : Nat
  f : Nat
  g : Nat
  h : Nat
deriving DecidableEq, Repr

/-- The initial hash value `H(0)`, written in decimal. -/
def initState : State :=
  ⟨1779033703, 3144134277, 1013904242, 2773480762,
   1359893119, 2600822924, 528734635, 1541459225⟩

/-- The 64 round constants `K`, written in decimal. -/
def kConsts : List Nat :=
  [1116352408, 1899447441, 3049323471, 3921009573, 961987163,
   1508970993, 2453635748, 2870763221, 3624381080, 310598401,
   607225278, 1426881987, 1925078388, 2162078206, 2614888103,
   3248222580, 3835390401, 4022224774, 264347078, 604807628,
   770255983, 1249150122, 1555081692, 1996064986, 2554220882,
   2821834349, 2952996808, 3210313671, 3336571891, 3584528711,
   113926993, 338241895, 666307205, 773529912, 1294757372,
   1396182291, 1695183700, 1986661051, 2177026350, 2456956037,
   2730485921, 2820302411, 3259730800, 3345764771, 3516065817,
   3600352804, 4094571909, 275423344, 430227734, 506948616,
   659060556, 883997877, 958139571, 1322822218, 1537002063,
   1747873779, 1955562222, 2024104815, 2227730452, 2361852424,
   2428436474, 2756734187, 3204031479, 3329325298]

/-- Message-schedule step: the next word from the previous sixteen, given
the schedule so far in reverse order. -/
def nextScheduleWord (rws : List Nat) : Nat :=
  let w2 := rws.getD 1 0
  let w7 := rws.getD 6 0
  let w15 := rws.getD 14 0
  let w16 := rws.getD 15 0
  let s0 := rotr32 w15 7 ^^^ rotr32 w15 18 ^^^ w15 / 2 ^ 3
  let s1 := rotr32 w2 17 ^^^ rotr32 w2 19 ^^^ w2 / 2 ^ 10
  mod32 (w16 + s0 + w7 + s1)

/-- Extend a reversed schedule by `n` further words and return the full
schedule in order. -/
def extendScheduleRev : Nat → List Nat → List Nat
  | 0, rws => rws.reverse
  | n + 1, rws => extendScheduleRev n (nextScheduleWord rws :: rws)

/-- The 64-word message schedule of a 16-word chunk. -/
def schedule (ws : List Nat) : List Nat :=
  extendScheduleRev 48 ws.reverse

/-- One compression round; `kw` is the round constant plus the schedule
word, already reduced. -/
def round (st : State) (kw : Nat) : State :=
  let bigS1 := rotr32 st.e 6 ^^^ rotr32 st.e 11 ^^^ rotr32 st.e 25
  let ch := st.e &&& st.f ^^^ not32 st.e &&& st.g
  let temp1 := mod32 (st.h + bigS1 + ch + kw)
  let bigS0 := rotr32 st.a 2 ^^^ rotr32 st.a 13 ^^^ rotr32 st.a 22
  let maj := st.a &&& st.b ^^^ st.a &&& st.c ^^^ st.b &&& st.c
  let temp2 := mod32 (bigS0 + maj)
  ⟨mod32 (temp1 + temp2), st.a, st.b, st.c,
   mod32 (st.d + temp1), st.e, st.f, st.g⟩

/-- Compress one 16-word chunk into the running hash value. -/
def processChunk (st : State) (ws : List Nat) : State :=
  let kws := List.zipWith (fun k w => mod32 (k + w)) kConsts (schedule ws)
  let t := kws.foldl round st
  ⟨mod32 (st.a + t.a), mod32 (st.b + t.b), mod32 (st.c + t.c),
   mod32 (st.d + t.d), mod32 (st.e + t.e), mod32 (st.f + t.f),
   mod32 (st.g + t.g), mod32 (st.h + t.h)⟩

/-- Big-endian bytes of a 64-bit length field. -/
def be8 (n : Nat) : List Nat :=
  [n / 2 ^ 56 % 256, n / 2 ^ 48 % 256, n / 2 ^ 40 % 256, n / 2 ^ 32 % 256,
   n / 2 ^ 24 % 256, n / 2 ^ 16 % 256, n / 2 ^ 8 % 256, n % 256]

/-- Big-endian bytes of a 32-bit word. -/
def be4 (n : Nat) : List Nat :=
  [n / 2 ^ 24 % 256, n / 2 ^ 16 % 256, n / 2 ^ 8 % 256, n % 256]

/-- Merkle–Damgard padding: a `0x80` byte, zeroes, and the bit length as a
64-bit big-endian field, to a multiple of 64 bytes. -/
def padMessage (msg : List Nat) : List Nat :=
  msg ++ 0x80 :: List.replicate ((64 - (msg.length + 9) % 64) % 64) 0
    ++ be8 (msg.length * 8)

/-- Group bytes into 64-byte chunks. -/
def chunks64 : List Nat → List (List Nat)
  | [] => []
  | b :: rest => (b :: rest).take 64 :: chunks64 ((b :: rest).drop 64)
termination_by l => l.length
decreasing_by simp [List.drop_succ_cons]; omega

/-- Combine four big-endian bytes into a 32-bit word. -/
def toWords : List Nat → List Nat
  | b0 :: b1 :: b2 :: b3 :: rest =>
    (b0 % 256 * 2 ^ 24 + b1 % 256 * 2 ^ 16 + b2 % 256 * 2 ^ 8 + b3 % 256)
      :: toWords rest
  | _ => []

/-- The SHA-256 digest (32 bytes) of a byte sequence. -/
def digest (msg : List Nat) : List Nat :=
  let st := (chunks64 (padMessage msg)).foldl
    (fun st ch => processChunk st (toWords ch)) initState
  be4 st.a ++ be4 st.b ++ be4 st.c ++ be4 st.d
    ++ be4 st.e ++ be4 st.f ++ be4 st.g ++ be4 st.h

/-- The sixteen lowercase hexadecimal digits. -/
def hexChars : List Char :=
  "0123456789abcdef".data

/-- The lowercase hexadecimal digit of `n % 16`. -/
def hexDigit (n : Nat) : Char :=
  hexChars.getD (n % 16) '0'

/-- Two lowercase hexadecimal digits of a byte, as `fmt.Sprintf("%x")`
prints each byte of a digest. -/
def byteHex (b : Nat) : List Char :=
  [hexDigit (b / 16), hexDigit b]

/-- Lowercase hexadecimal rendering of a byte sequence. -/
def bytesToHex (bs : List Nat) : String :=
  ⟨bs.foldr (fun b cs => byteHex b ++ cs) []⟩

/-- UTF-8 bytes of one character, as Go strings store text. -/
def utf8Bytes (c : Char) : List Nat :=
  let n := c.toNat
  if n < 0x80 then [n]
  else if n < 0x800 then [0xC0 + n / 0x40, 0x80 + n % 0x40]
  else if n < 0x10000 then
    [0xE0 + n / 0x1000, 0x80 + n / 0x40 % 0x40, 0x80 + n % 0x40]
  else
    [0xF0 + n / 0x40000, 0x80 + n / 0x1000 % 0x40,
     0x80 + n / 0x40 % 0x40, 0x80 + n % 0x40]

/-- The UTF-8 byte sequence of a string. -/
def strBytes (s : String) : List Nat :=
  s.data.foldr (fun c bs => utf8Bytes c ++ bs) []

/-- The lowercase hexadecimal SHA-256 digest of a string, as
`fmt.Sprintf("%x", hash.Sum(nil))` renders it. -/
def hexDigestOfString (s : String) : String :=
  bytesToHex (digest (strBytes s))

end Sha256

/-- A plugin: a name and a version string (`GrafanaPlugin` of the Go code). -/
structure GrafanaPlugin where
  name : String
  version : String
deriving DecidableEq, Repr

/-- `PluginList`: a Go slice of plugins. -/
abbrev PluginList := List GrafanaPlugin

/-- `Hash`: build the concatenation of each entry's name immediately
followed by its version, in order, with a string builder, and return the
hexadecimal SHA-256 digest of that string. -/
def PluginList.Hash (l : PluginList) : String :=
  Sha256.hexDigestOfString (l.foldl (fun sb p => sb ++ p.name ++ p.version) "")

/-- `HasSomeVersionOf`: some listed plugin shares the name, any version. -/
def PluginList.HasSomeVersionOf (l : PluginList) (p : GrafanaPlugin) : Bool :=
  l.any fun q => q.name == p.name

/-- `HasExactVersionOf`: some listed plugin shares both name and version. -/
def PluginList.HasExactVersionOf (l : PluginList) (p : GrafanaPlugin) : Bool :=
  l.any fun q => q.name == p.name && q.version == p.version

/-- `Update`. The Go loop ranges with `for _, installedPlugin := range l`,
so `installedPlugin` is a copy of each element and the assignment
`installedPlugin.Version = plugin.Version` mutates only that copy: the
slice the caller holds is left entirely unchanged, and the method is a
no-op on the list. -/
def PluginList.Update (l : PluginList) (_p : GrafanaPlugin) : PluginList :=
  l

/-- `GetInstalledVersionOf`: first listed plugin sharing the name. -/
def PluginList.GetInstalledVersionOf (l : PluginList) (p : GrafanaPlugin) :
    Option GrafanaPlugin :=
  l.find? fun q => q.name == p.name

/-- `HasNewerVersionOf`: scan the list in order, skipping entries with a
different name; for a matching entry parse the listed then the requested
version (aborting with the parse error), and return `true` at the first
matching entry whose version compares strictly greater. -/
def PluginList.HasNewerVersionOf : PluginList → GrafanaPlugin → Except String Bool
  | [], _ => .ok false
  | q :: rest, p =>
    if q.name ≠ p.name then PluginList.HasNewerVersionOf rest p
    else
      match Semver.make q.version with
      | .error e => .error e
      | .ok listedVersion =>
        match Semver.make p.version with
        | .error e => .error e
        | .ok requestedVersion =>
          if listedVersion.compare requestedVersion = 1 then .ok true
          else PluginList.HasNewerVersionOf rest p

/-- The loop body of `Sanitize`, with the accumulating slice made explicit:
drop entries whose version does not parse, then drop entries whose name was
already retained, otherwise append. -/
def sanitizeAux (acc : PluginList) : PluginList → PluginList
  | [] => acc
  | p :: rest =>
    match Semver.parse p.version with
    | .error _ => sanitizeAux acc rest
    | .ok _ =>
      if acc.HasSomeVersionOf p then sanitizeAux acc rest
      else sanitizeAux (acc ++ [p]) rest

/-- `Sanitize`: remove duplicates and enforce semver, starting from an
empty accumulator. -/
def PluginList.Sanitize (l : PluginList) : PluginList :=
  sanitizeAux [] l

/-- The loop of `ConsolidatedConcat`, with the accumulating slice explicit:
append unseen names; for a repeated name keep the retained entry when it is
newer or identical, and otherwise call `Update` (a no-op, see
`PluginList.Update`); a comparison error aborts the whole call. -/
def consolidateLoop (acc : PluginList) : PluginList → Except String PluginList
  | [] => .ok acc
  | p :: rest =>
    if !acc.HasSomeVersionOf p then consolidateLoop (acc ++ [p]) rest
    else
      match acc.HasNewerVersionOf p with
      | .error e => .error e
      | .ok true => consolidateLoop acc rest
      | .ok false =>
        if acc.HasExactVersionOf p then consolidateLoop acc rest
        else consolidateLoop (acc.Update p) rest

/-- `ConsolidatedConcat`: the result is built from scratch out of `others`;
the receiver is never read. -/
def PluginList.ConsolidatedConcat (_l : PluginList) (others : PluginList) :
    Except String PluginList :=
  consolidateLoop [] others

/-! ## Statement vocabulary and helper lemmas -/

/-- The version string parses as a semantic version. -/
def parsesAsSemver (s : String) : Bool :=
  match Semver.parse s with
  | .ok _ => true
  | .error _ => false

/-- Strict semantic-version precedence on version strings: both parse and
the first compares strictly greater. -/
def semverGt (a b : String) : Bool :=
  match Semver.make a, Semver.make b with
  | .ok va, .ok vb => va.compare vb == 1
  | _, _ => false

/-- No two entries of the list share a name. -/
def namesNodup (l : PluginList) : Prop :=
  l.Pairwise fun a b => a.name ≠ b.name

lemma make_eq_parse (s : String) : Semver.make s = Semver.parse s := rfl

lemma parsesAsSemver_iff (s : String) :
    parsesAsSemver s = true ↔ ∃ v, Semver.parse s = .ok v := by
  cases h : Semver.parse s <;> simp [parsesAsSemver, h]

lemma hasSomeVersionOf_append (l1 l2 : PluginList) (p : GrafanaPlugin) :
    PluginList.HasSomeVersionOf (l1 ++ l2) p =
      (PluginList.HasSomeVersionOf l1 p || PluginList.HasSomeVersionOf l2 p) := by
  simp [PluginList.HasSomeVersionOf]

lemma hasSomeVersionOf_eq_false_iff (l : PluginList) (p : GrafanaPlugin) :
    PluginList.HasSomeVersionOf l p = false ↔ ∀ q ∈ l, q.name ≠ p.name := by
  simp [PluginList.HasSomeVersionOf]

lemma hasSomeVersionOf_name_congr (l : PluginList) {p q : GrafanaPlugin}
    (h : p.name = q.name) :
    PluginList.HasSomeVersionOf l p = PluginList.HasSomeVersionOf l q := by
  simp [PluginList.HasSomeVersionOf, h]

/-! ## Theorems for the claims -/

/-- C2: the claim says `Update` sets the first name-matching entry's version
in place. The Go loop binds each element by value, so the assignment lands
on a copy and the list is returned unchanged for every input: `Update` is a
no-op, contradicting its own doc comment `Update update plugin version`. -/
theorem update_is_noop (l : PluginList) (p : GrafanaPlugin) :
    PluginList.Update l p = l := rfl

/-- C2, evaluated at the failing input: a list holding `("a", "1.0.0")`
updated with `("a", "2.0.0")` still holds version `"1.0.0"`. -/
theorem update_failing_input :
    PluginList.Update [⟨"a", "1.0.0"⟩] ⟨"a", "2.0.0"⟩ = [⟨"a", "1.0.0"⟩] := rfl

/-- C1: the claim (and the spec) say consolidating
`[("a","1.0.0"), ("a","2.0.0"), ("a","1.5.0")]` retains version `"2.0.0"`.
Because `Update` is a no-op (see `update_is_noop`), the code retains the
FIRST version of each name instead of the maximum: the call succeeds with
`[("a","1.0.0")]`. -/
theorem consolidatedConcat_keeps_first_version :
    PluginList.ConsolidatedConcat []
      [⟨"a", "1.0.0"⟩, ⟨"a", "2.0.0"⟩, ⟨"a", "1.5.0"⟩] =
      .ok [⟨"a", "1.0.0"⟩] := rfl

/-- C8: `ConsolidatedConcat` never reads its receiver: any two receivers
give identical outcomes on the same incoming list. -/
theorem consolidatedConcat_receiver_independent (l1 l2 incoming : PluginList) :
    PluginList.ConsolidatedConcat l1 incoming =
      PluginList.ConsolidatedConcat l2 incoming := rfl

/-- C10: when no listed entry shares the queried name, `HasNewerVersionOf`
returns `false` with no error; version parsing is attempted only for
name-matching entries. -/
theorem hasNewerVersionOf_no_matching_name (l : PluginList) (p : GrafanaPlugin)
    (h : ∀ q ∈ l, q.name ≠ p.name) :
    PluginList.HasNewerVersionOf l p = .ok false := by
  induction l with
  | nil => rfl
  | cons q rest ih =>
    have hq : q.name ≠ p.name := h q (List.mem_cons_self q rest)
    rw [PluginList.HasNewerVersionOf]
    simp only [hq, ne_eq, not_false_eq_true, if_true]
    exact ih fun r hr => h r (List.mem_cons_of_mem q hr)

/-- C10 at a concrete input: neither `"???"` nor `"zzz"` parses, yet the
query returns `ok false` because the names differ. -/
theorem hasNewerVersionOf_no_matching_name_witness :
    parsesAsSemver "???" = false ∧ parsesAsSemver "zzz" = false ∧
      PluginList.HasNewerVersionOf [⟨"b", "zzz"⟩] ⟨"a", "???"⟩ = .ok false :=
  ⟨rfl, rfl, hasNewerVersionOf_no_matching_name [⟨"b", "zzz"⟩] ⟨"a", "???"⟩
    (by decide)⟩

/-- C3 counterexample: the claim says any unparseable incoming version makes
`ConsolidatedConcat` fail. But a first occurrence of a name is appended
without any parsing: `[("a","x")]` has an unparseable version and the call
succeeds, returning that entry. -/
theorem consolidatedConcat_unparsed_first_occurrence_ok :
    parsesAsSemver "x" = false ∧
      PluginList.ConsolidatedConcat [] [⟨"a", "x"⟩] = .ok [⟨"a", "x"⟩] :=
  ⟨rfl, rfl⟩

/-- C3 amended: `ConsolidatedConcat` parses a version only when the entry's
name is already retained. When the incoming names are pairwise distinct the
call always succeeds and returns the incoming list itself, parseable
versions or not. -/
theorem consolidatedConcat_distinct_names_ok (l incoming : PluginList)
    (h : namesNodup incoming) :
    PluginList.ConsolidatedConcat l incoming = .ok incoming := by
  suffices key : ∀ (rest acc : PluginList),
      (∀ p ∈ rest, PluginList.HasSomeVersionOf acc p = false) →
      namesNodup rest → consolidateLoop acc rest = .ok (acc ++ rest) by
    have := key incoming [] (fun p _ => rfl) h
    simpa [PluginList.ConsolidatedConcat] using this
  intro rest
  induction rest with
  | nil => intro acc _ _; simp [consolidateLoop]
  | cons p tail ih =>
    intro acc hdisj hnodup
    have hp : PluginList.HasSomeVersionOf acc p = false :=
      hdisj p (List.mem_cons_self p tail)
    rw [consolidateLoop]
    simp only [hp, Bool.not_false, if_true]
    rw [ih (acc ++ [p]) ?_ ?_]
    · simp
    · intro q hq
      have h1 := hdisj q (List.mem_cons_of_mem p hq)
      have h2 : p.name ≠ q.name :=
        (List.pairwise_cons.mp hnodup).1 q hq
      rw [hasSomeVersionOf_append, h1]
      simp [PluginList.HasSomeVersionOf, h2]
    · exact (List.pairwise_cons.mp hnodup).2

/-- C3 amended, at a concrete input: two distinct names with unparseable
versions consolidate successfully to themselves. -/
theorem consolidatedConcat_distinct_names_ok_witness :
    PluginList.ConsolidatedConcat [] [⟨"a", "x"⟩, ⟨"b", "y"⟩] =
      .ok [⟨"a", "x"⟩, ⟨"b", "y"⟩] :=
  consolidatedConcat_distinct_names_ok [] [⟨"a", "x"⟩, ⟨"b", "y"⟩] (by
    constructor
    · intro q hq
      simp only [List.mem_singleton] at hq
      subst hq
      decide
    · simp [namesNodup])

/-- C4 counterexample: the claim says the call errors whenever ANY listed
entry sharing the name has an unparseable version. But the scan returns
`true` at the first strictly-greater match and never reaches the later
entry `("a","x")`, whose version does not parse: the call succeeds. -/
theorem hasNewerVersionOf_early_true_skips_unparsed :
    parsesAsSemver "x" = false ∧
      PluginList.HasNewerVersionOf [⟨"a", "2.0.0"⟩, ⟨"a", "x"⟩]
        ⟨"a", "1.0.0"⟩ = .ok true :=
  ⟨rfl, rfl⟩

/-- C4 amended: `HasNewerVersionOf` scans in order, parses only
name-matching entries (listed version first, then the queried one, aborting
with the first parse error) and stops at the first strictly-greater match.
In particular, when the queried version and every name-matching listed
version parse, it returns `ok true` exactly when some name-matching entry
compares strictly greater, and `ok false` otherwise. -/
theorem hasNewerVersionOf_all_parse (l : PluginList) (p : GrafanaPlugin)
    (hp : parsesAsSemver p.version = true)
    (hl : ∀ q ∈ l, q.name = p.name → parsesAsSemver q.version = true) :
    PluginList.HasNewerVersionOf l p =
      .ok (l.any fun q => q.name == p.name && semverGt q.version p.version) := by
  obtain ⟨vp, hvp⟩ := (parsesAsSemver_iff _).mp hp
  induction l with
  | nil => rfl
  | cons q rest ih =>
    rw [PluginList.HasNewerVersionOf]
    by_cases hq : q.name = p.name
    · obtain ⟨vq, hvq⟩ := (parsesAsSemver_iff _).mp
        (hl q (List.mem_cons_self q rest) hq)
      simp only [hq, ne_eq, not_true_eq_false, if_false, make_eq_parse,
        hvq, hvp]
      by_cases hcmp : vq.compare vp = 1
      · simp [hcmp, List.any_cons, hq, semverGt, make_eq_parse, hvq, hvp]
      · rw [if_neg hcmp, ih fun r hr => hl r (List.mem_cons_of_mem q hr)]
        simp [List.any_cons, hq, semverGt, make_eq_parse, hvq, hvp, hcmp]
    · simp only [hq, ne_eq, not_false_eq_true, if_true]
      rw [ih fun r hr => hl r (List.mem_cons_of_mem q hr)]
      simp [List.any_cons, hq]

/-- C4 amended, at a concrete input: `2.0.0` is strictly newer than
`1.0.0`, all versions parse, and the call answers `ok true`. -/
theorem hasNewerVersionOf_all_parse_witness :
    PluginList.HasNewerVersionOf [⟨"a", "2.0.0"⟩] ⟨"a", "1.0.0"⟩ =
      .ok true := by
  rw [hasNewerVersionOf_all_parse [⟨"a", "2.0.0"⟩] ⟨"a", "1.0.0"⟩ (by decide)
    (by decide)]
  rfl

/-! ## Sanitize: structure of the accumulator loop -/

/-- The entries `Sanitize`'s loop appends beyond an accumulator `acc`:
entries whose version parses and whose name occurs neither in `acc` nor
among the already-kept entries. -/
def sanitizeRest (acc : PluginList) : PluginList → PluginList
  | [] => []
  | p :: rest =>
    match Semver.parse p.version with
    | .error _ => sanitizeRest acc rest
    | .ok _ =>
      if PluginList.HasSomeVersionOf acc p then sanitizeRest acc rest
      else p :: sanitizeRest (acc ++ [p]) rest

lemma sanitizeAux_eq_append (l : PluginList) :
    ∀ acc, sanitizeAux acc l = acc ++ sanitizeRest acc l := by
  induction l with
  | nil => intro acc; simp [sanitizeAux, sanitizeRest]
  | cons p rest ih =>
    intro acc
    rw [sanitizeAux, sanitizeRest]
    cases hp : Semver.parse p.version with
    | error e => exact ih acc
    | ok v =>
      by_cases hs : PluginList.HasSomeVersionOf acc p
      · simp only [hs, if_true]
        exact ih acc
      · simp only [hs, if_false, Bool.false_eq_true]
        rw [ih (acc ++ [p])]
        simp

lemma sanitize_eq_sanitizeRest (l : PluginList) :
    PluginList.Sanitize l = sanitizeRest [] l := by
  rw [PluginList.Sanitize, sanitizeAux_eq_append]
  rfl

lemma sanitizeRest_sublist (l : PluginList) :
    ∀ acc, (sanitizeRest acc l).Sublist l := by
  induction l with
  | nil => intro acc; simp [sanitizeRest]
  | cons p rest ih =>
    intro acc
    rw [sanitizeRest]
    cases hp : Semver.parse p.version with
    | error e => exact (ih acc).cons p
    | ok v =>
      by_cases hs : PluginList.HasSomeVersionOf acc p
      · simp only [hs, if_true]
        exact (ih acc).cons p
      · simp only [hs, if_false, Bool.false_eq_true]
        exact (ih (acc ++ [p])).cons₂ p

lemma sanitizeRest_parses (l : PluginList) :
    ∀ acc, ∀ q ∈ sanitizeRest acc l, parsesAsSemver q.version = true := by
  induction l with
  | nil => intro acc q hq; simp [sanitizeRest] at hq
  | cons p rest ih =>
    intro acc q hq
    rw [sanitizeRest] at hq
    cases hp : Semver.parse p.version with
    | error e => rw [hp] at hq; exact ih acc q hq
    | ok v =>
      rw [hp] at hq
      by_cases hs : PluginList.HasSomeVersionOf acc p
      · rw [if_pos hs] at hq
        exact ih acc q hq
      · rw [if_neg hs] at hq
        rcases List.mem_cons.mp hq with rfl | hq'
        · exact (parsesAsSemver_iff _).mpr ⟨v, hp⟩
        · exact ih (acc ++ [p]) q hq'

lemma sanitizeRest_not_in_acc (l : PluginList) :
    ∀ acc, ∀ q ∈ sanitizeRest acc l,
      PluginList.HasSomeVersionOf acc q = false := by
  induction l with
  | nil => intro acc q hq; simp [sanitizeRest] at hq
  | cons p rest ih =>
    intro acc q hq
    rw [sanitizeRest] at hq
    cases hp : Semver.parse p.version with
    | error e => rw [hp] at hq; exact ih acc q hq
    | ok v =>
      rw [hp] at hq
      by_cases hs : PluginList.HasSomeVersionOf acc p
      · rw [if_pos hs] at hq
        exact ih acc q hq
      · rw [if_neg hs] at hq
        rcases List.mem_cons.mp hq with rfl | hq'
        · simp only [Bool.not_eq_true] at hs
          exact hs
        · have h2 := ih (acc ++ [p]) q hq'
          rw [hasSomeVersionOf_append] at h2
          exact (Bool.or_eq_false_iff.mp h2).1

lemma sanitizeRest_namesNodup (l : PluginList) :
    ∀ acc, namesNodup (sanitizeRest acc l) := by
  induction l with
  | nil => intro acc; simp [sanitizeRest, namesNodup]
  | cons p rest ih =>
    intro acc
    rw [sanitizeRest]
    cases hp : Semver.parse p.version with
    | error e => exact ih acc
    | ok v =>
      by_cases hs : PluginList.HasSomeVersionOf acc p
      · rw [if_pos hs]
        exact ih acc
      · rw [if_neg hs]
        refine List.pairwise_cons.mpr ⟨fun q hq => ?_, ih (acc ++ [p])⟩
        have h2 := sanitizeRest_not_in_acc rest (acc ++ [p]) q hq
        rw [hasSomeVersionOf_append] at h2
        have h3 := (Bool.or_eq_false_iff.mp h2).2
        simpa [PluginList.HasSomeVersionOf] using h3

lemma mem_sanitizeRest (l : PluginList) :
    ∀ acc (q : GrafanaPlugin), q ∈ sanitizeRest acc l ↔
      PluginList.HasSomeVersionOf acc q = false ∧
        l.find? (fun r => r.name == q.name && parsesAsSemver r.version) =
          some q := by
  induction l with
  | nil => intro acc q; simp [sanitizeRest]
  | cons p rest ih =>
    intro acc q
    rw [sanitizeRest, List.find?]
    cases hp : Semver.parse p.version with
    | error e =>
      have hpb : parsesAsSemver p.version = false := by
        simp [parsesAsSemver, hp]
      rw [hpb]
      simp only [Bool.and_false]
      exact ih acc q
    | ok v =>
      have hpb : parsesAsSemver p.version = true := by
        simp [parsesAsSemver, hp]
      rw [hpb]
      simp only [Bool.and_true]
      by_cases hn : p.name = q.name
      · have hbeq : (p.name == q.name) = true := beq_iff_eq.mpr hn
        rw [hbeq]
        have hcongr := hasSomeVersionOf_name_congr acc hn
        by_cases hs : PluginList.HasSomeVersionOf acc p
        · rw [if_pos hs]
          rw [ih acc q]
          have : PluginList.HasSomeVersionOf acc q = true := by
            rw [← hcongr]; exact hs
          constructor
          · rintro ⟨hfalse, -⟩
            rw [this] at hfalse
            cases hfalse
          · rintro ⟨hfalse, -⟩
            rw [this] at hfalse
            cases hfalse
        · rw [if_neg hs]
          constructor
          · intro hmem
            rcases List.mem_cons.mp hmem with rfl | hmem'
            · refine ⟨?_, rfl⟩
              rw [← hcongr]
              simpa using hs
            · have h2 := sanitizeRest_not_in_acc rest (acc ++ [p]) q hmem'
              rw [hasSomeVersionOf_append] at h2
              have h3 := (Bool.or_eq_false_iff.mp h2).2
              simp [PluginList.HasSomeVersionOf, hn] at h3
          · rintro ⟨-, hfind⟩
            have : p = q := by injection hfind
            subst this
            exact List.mem_cons_self p _
      · have hbeq : (p.name == q.name) = false := by
          simpa using hn
        rw [hbeq]
        by_cases hs : PluginList.HasSomeVersionOf acc p
        · rw [if_pos hs]
          exact ih acc q
        · rw [if_neg hs]
          rw [List.mem_cons, ih (acc ++ [p]) q, hasSomeVersionOf_append]
          have hsingle : PluginList.HasSomeVersionOf [p] q = false := by
            simp [PluginList.HasSomeVersionOf, hn]
          rw [hsingle]
          simp only [Bool.or_false]
          constructor
          · rintro (rfl | h)
            · exact absurd rfl hn
            · exact h
          · intro h
            exact Or.inr h

/-- C5: for every list, `Sanitize` keeps no two entries of one name, every
kept entry's version parses, the kept entries form an order-preserving
subsequence of the input, and an entry is kept exactly when it is the first
entry of its name whose version parses; `Sanitize` is total, so malformed
versions are dropped silently rather than failing. -/
theorem sanitize_spec (l : PluginList) :
    namesNodup (PluginList.Sanitize l)
    ∧ (∀ q ∈ PluginList.Sanitize l, parsesAsSemver q.version = true)
    ∧ (PluginList.Sanitize l).Sublist l
    ∧ ∀ q : GrafanaPlugin, q ∈ PluginList.Sanitize l ↔
        l.find? (fun r => r.name == q.name && parsesAsSemver r.version) =
          some q := by
  rw [sanitize_eq_sanitizeRest]
  refine ⟨sanitizeRest_namesNodup l [], sanitizeRest_parses l [],
    sanitizeRest_sublist l [], fun q => ?_⟩
  rw [mem_sanitizeRest l [] q]
  simp [PluginList.HasSomeVersionOf]

lemma sanitizeRest_id (l : PluginList) :
    ∀ acc, (∀ q ∈ l, parsesAsSemver q.version = true) → namesNodup l →
      (∀ q ∈ l, PluginList.HasSomeVersionOf acc q = false) →
      sanitizeRest acc l = l := by
  induction l with
  | nil => intro acc _ _ _; rfl
  | cons p rest ih =>
    intro acc hparse hnodup hdisj
    obtain ⟨v, hv⟩ := (parsesAsSemver_iff _).mp
      (hparse p (List.mem_cons_self p rest))
    rw [sanitizeRest, hv]
    rw [if_neg (by simp [hdisj p (List.mem_cons_self p rest)])]
    show p :: sanitizeRest (acc ++ [p]) rest = p :: rest
    congr 1
    refine ih (acc ++ [p]) (fun q hq => hparse q (List.mem_cons_of_mem p hq))
      (List.pairwise_cons.mp hnodup).2 fun q hq => ?_
    rw [hasSomeVersionOf_append, hdisj q (List.mem_cons_of_mem p hq)]
    have h2 : p.name ≠ q.name := (List.pairwise_cons.mp hnodup).1 q hq
    simp [PluginList.HasSomeVersionOf, h2]

/-- C6: `Sanitize` is idempotent: a second pass keeps every entry of the
first pass's output, in the same order. -/
theorem sanitize_idempotent (l : PluginList) :
    PluginList.Sanitize (PluginList.Sanitize l) = PluginList.Sanitize l := by
  rw [sanitize_eq_sanitizeRest (PluginList.Sanitize l)]
  refine sanitizeRest_id (PluginList.Sanitize l) [] ?_ ?_ fun q _ => rfl
  · rw [sanitize_eq_sanitizeRest]
    exact sanitizeRest_parses l []
  · rw [sanitize_eq_sanitizeRest]
    exact sanitizeRest_namesNodup l []

/-! ## ConsolidatedConcat: uniqueness of names -/

lemma consolidateLoop_namesNodup :
    ∀ (incoming acc res : PluginList), consolidateLoop acc incoming = .ok res →
      namesNodup acc → namesNodup res := by
  intro incoming
  induction incoming with
  | nil =>
    intro acc res h hacc
    rw [consolidateLoop] at h
    cases h
    exact hacc
  | cons p rest ih =>
    intro acc res h hacc
    rw [consolidateLoop] at h
    cases hs : PluginList.HasSomeVersionOf acc p with
    | false =>
      rw [hs] at h
      simp only [Bool.not_false, if_true] at h
      refine ih (acc ++ [p]) res h ?_
      refine List.pairwise_append.mpr ⟨hacc, List.pairwise_singleton _ _, ?_⟩
      intro a ha b hb
      rw [List.mem_singleton] at hb
      rw [hb]
      exact (hasSomeVersionOf_eq_false_iff acc p).mp hs a ha
    | true =>
      rw [hs] at h
      simp only [Bool.not_true, if_false, Bool.false_eq_true] at h
      cases hnew : PluginList.HasNewerVersionOf acc p with
      | error e =>
        rw [hnew] at h
        cases h
      | ok b =>
        rw [hnew] at h
        cases b with
        | true => exact ih acc res h hacc
        | false =>
          by_cases he : PluginList.HasExactVersionOf acc p
          · rw [if_pos he] at h
            exact ih acc res h hacc
          · rw [if_neg he] at h
            exact ih acc res h hacc

/-- C7: whenever `ConsolidatedConcat` succeeds its result has pairwise
distinct names (the loop appends an entry only when its name is unseen and
otherwise leaves the accumulated names unchanged), and the
identical-version duplicate `[("a","1.0.0"), ("a","1.0.0")]` collapses to
the single entry `("a","1.0.0")`. -/
theorem consolidatedConcat_unique_names :
    (∀ l others res : PluginList,
      PluginList.ConsolidatedConcat l others = .ok res → namesNodup res)
    ∧ PluginList.ConsolidatedConcat [] [⟨"a", "1.0.0"⟩, ⟨"a", "1.0.0"⟩] =
        .ok [⟨"a", "1.0.0"⟩] := by
  refine ⟨fun l others res h => ?_, rfl⟩
  exact consolidateLoop_namesNodup others [] res h List.Pairwise.nil

/-! ## Hash: shape of the digest -/

lemma hash_builder_eq_join (l : PluginList) :
    l.foldl (fun sb p => sb ++ p.name ++ p.version) "" =
      String.join (l.map fun p => p.name ++ p.version) := by
  rw [String.join, List.foldl_map]
  have harg : (fun sb (p : GrafanaPlugin) => sb ++ p.name ++ p.version) =
      fun r p => r ++ (p.name ++ p.version) := by
    funext sb p
    rw [String.append_assoc]
  rw [harg]

lemma bytesToHex_length (bs : List Nat) :
    (Sha256.bytesToHex bs).length = 2 * bs.length := by
  induction bs with
  | nil => rfl
  | cons b rest ih =>
    show (Sha256.byteHex b ++ (Sha256.bytesToHex rest).data).length =
      2 * (b :: rest).length
    rw [List.length_append]
    have ih' : (Sha256.bytesToHex rest).data.length = 2 * rest.length := ih
    rw [ih']
    simp only [Sha256.byteHex, List.length_cons, List.length_nil]
    omega

lemma digest_length (msg : List Nat) : (Sha256.digest msg).length = 32 := by
  simp [Sha256.digest, Sha256.be4]

lemma hexDigit_mem (n : Nat) : Sha256.hexDigit n ∈ Sha256.hexChars := by
  have h : n % 16 < Sha256.hexChars.length := Nat.mod_lt _ (by norm_num)
  rw [Sha256.hexDigit, List.getD_eq_getElem Sha256.hexChars '0' h]
  exact List.getElem_mem h

lemma bytesToHex_chars (bs : List Nat) :
    ∀ c ∈ (Sha256.bytesToHex bs).data, c ∈ Sha256.hexChars := by
  induction bs with
  | nil => intro c hc; simp [Sha256.bytesToHex] at hc
  | cons b rest ih =>
    intro c hc
    simp only [Sha256.bytesToHex, List.foldr_cons] at hc
    rcases List.mem_append.mp hc with h1 | h2
    · simp only [Sha256.byteHex, List.mem_cons, List.not_mem_nil,
        or_false] at h1
      rcases h1 with rfl | rfl <;> exact hexDigit_mem _
    · exact ih c h2

/-- C9: `Hash` is the lowercase hexadecimal SHA-256 digest of the
concatenation, in order, of each entry's name immediately followed by its
version with no separator; its output always has exactly 64 characters,
all lowercase hexadecimal digits. Being a function of the entry sequence,
identical collections hash identically. -/
theorem hash_is_hex_sha256_of_concat (l : PluginList) :
    PluginList.Hash l =
      Sha256.hexDigestOfString (String.join (l.map fun p => p.name ++ p.version))
    ∧ (PluginList.Hash l).length = 64
    ∧ ∀ c ∈ (PluginList.Hash l).data, c ∈ Sha256.hexChars := by
  refine ⟨?_, ?_, ?_⟩
  · rw [PluginList.Hash, hash_builder_eq_join]
  · rw [PluginList.Hash]
    show (Sha256.bytesToHex (Sha256.digest _)).length = 64
    rw [bytesToHex_length, digest_length]
  · rw [PluginList.Hash]
    exact bytesToHex_chars _
